import Mathlib

/-!
Verification development for the aipod repository: a shallow embedding of
the multi-factor article ranking engine (src/aipod/ranking), the
configuration validation (src/aipod/config), the pipeline stage machine
(src/aipod/pipeline/orchestrator.py) and the run store (src/aipod/db/runs.py),
together with theorems settling the specification claims.

Numeric conventions: Python floats are embedded as exact rationals, except
for the recency signal whose exponential decay is embedded over the reals.
Timestamps are embedded as abstract ticks; an article's age in hours and a
historical article's first-seen age in days are taken as inputs, standing
for the values the code derives from the ambient clock.
-/

/-! ### Text processing helpers (embedding Python `str.lower`, `str.split`,
and `re.findall` with word-boundary patterns, over `List Char`). -/

/-- Lowercasing of a character sequence, embedding Python `str.lower`
(ASCII range, which is what the repository's keywords and titles use). -/
def pyLower (s : List Char) : List Char := s.map Char.toLower

/-- Split on whitespace dropping empty segments, embedding Python
`str.split()` with no separator argument. `acc` holds the current word
reversed. -/
def splitWsAux (acc : List Char) : List Char → List (List Char)
  | [] => if acc = [] then [] else [acc.reverse]
  | c :: rest =>
    if c.isWhitespace then
      if acc = [] then splitWsAux [] rest
      else acc.reverse :: splitWsAux [] rest
    else splitWsAux (c :: acc) rest

/-- Whitespace-splitting of a character sequence (Python `str.split()`). -/
def splitWs (s : List Char) : List (List Char) := splitWsAux [] s

/-- Word characters for the regex `\b` boundary (`[a-zA-Z0-9_]` over the
ASCII data the repository processes). -/
def isWordChar (c : Char) : Bool := c.isAlphanum || c == '_'

/-- Whether an optional neighbouring character counts as a word character
(string edges count as non-word for `\b`). -/
def isWordOpt : Option Char → Bool
  | none => false
  | some c => isWordChar c

/-- A match of the pattern `\b<kw>\b` starting at the head of `txt`, with
`prev` the character just before the current position: the keyword must be
a literal prefix of `txt` and a `\b` boundary must hold on both sides. -/
def matchAt (prev : Option Char) (k : Char) (ks : List Char) (txt : List Char) : Bool :=
  (k :: ks).isPrefixOf txt
    && (isWordOpt prev != isWordChar k)
    && (isWordChar (ks.getLastD k) != isWordOpt (txt.drop (ks.length + 1)).head?)

/-- Scanning loop of `re.findall(r'\b' + re.escape(kw) + r'\b', text)`:
count non-overlapping, leftmost matches. `skip` is the number of characters
of a previously counted match still to be passed over; `prev` is the
character preceding the current position. -/
def scanCount (k : Char) (ks : List Char) (skip : ℕ) (prev : Option Char) :
    List Char → ℕ
  | [] => 0
  | c :: rest =>
    match skip with
    | n + 1 => scanCount k ks n (some c) rest
    | 0 =>
      if matchAt prev k ks (c :: rest) then
        1 + scanCount k ks ks.length (some c) rest
      else
        scanCount k ks 0 (some c) rest

/-- Embedding of `TopicScorer._count_matches` for one keyword: the number
of whole-word, case-insensitive matches of `kw` in `text`. The keyword is
assumed already lowercased by the scorer's constructor; the text is
lowercased here, as in the source. Keywords are non-empty strings in every
configuration; the empty keyword is mapped to zero matches. -/
def countMatches (kw : String) (text : String) : ℕ :=
  match kw.toList with
  | [] => 0
  | k :: ks => scanCount k ks 0 none (pyLower text.toList)

/-! ### Topic scorer (embedding `TopicScorer.score`, `scorers.py:109-146`).
`matches` dictionaries are keyed by keyword, so duplicate keywords in a
configured list contribute once: the sums below run over deduplicated
lowercased keyword lists. The title weight is the constructor default 2.0,
the value used by `ArticleRanker`. -/

/-- String-level lowercasing (Python `str.lower` on keyword and preference
configuration entries). -/
def strLower (s : String) : String := String.mk (pyLower s.toList)

/-- Raw weighted match total for a keyword list against title and content:
title matches count double (`title_weight = 2.0`), content matches once. -/
def rawKeywordScore (kws : List String) (title content : String) : ℚ :=
  (((kws.map strLower).dedup).map
    (fun kw => (2 * (countMatches kw title) + countMatches kw content : ℚ))).sum

/-- Embedding of `TopicScorer.score`: base 0.5, plus half the boost total
normalized by 10, minus half the suppress total normalized by 5 (both caps
applied only when the raw total is positive, as in the source), clamped to
[0,1]. -/
def topicScore (boostKws suppressKws : List String) (title content : String) : ℚ :=
  let boostRaw := rawKeywordScore boostKws title content
  let suppressRaw := rawKeywordScore suppressKws title content
  let boostNorm := if boostRaw > 0 then min 1 (boostRaw / 10) else boostRaw
  let suppressNorm := if suppressRaw > 0 then min 1 (suppressRaw / 5) else suppressRaw
  max 0 (min 1 ((1 : ℚ)/2 + boostNorm * (1/2) - suppressNorm * (1/2)))

/-! ### Article data (the dictionary rows handed to the scorers by
`ArticleStorage.get_run_articles` / `get_recent_articles`). -/

/-- An article row as seen by the ranking engine. `ageHours` stands for the
elapsed hours between `published_at` and the scoring clock (`none` when
`published_at` is missing); `firstSeenDaysAgo` for the whole days between
`first_seen_at` and the clock (`none` when missing); `extractedContent` for
the lazily loaded body text (`none` when there is no extracted path or the
read failed, which the ranker turns into the empty string). -/
structure Article where
  id : ℕ
  title : String
  canonicalUrl : Option String
  contentHash : Option String
  outlet : String
  sourceWeight : Option ℚ
  ageHours : Option ℝ
  firstSeenDaysAgo : Option ℤ
  extractedContent : Option String
  sourceName : String
  category : String

/-! ### Novelty scorer (embedding `NoveltyScorer`, `scorers.py:149-214`). -/

/-- Embedding of `NoveltyScorer._is_similar`. The canonical URLs are read
with `dict.get` (default `None`) on both sides and compared directly, so
two missing URLs compare equal; the content-hash branch requires the
candidate's hash to be truthy (present and non-empty); the title branch
compares lowercased word sets when both titles are non-empty and have more
than 3 distinct words, against the similarity threshold. -/
def isSimilar (thr : ℚ) (a b : Article) : Bool :=
  (a.canonicalUrl == b.canonicalUrl)
  || (match a.contentHash with
      | some h => h ≠ "" && b.contentHash == some h
      | none => false)
  || (let t1 := pyLower a.title.toList
      let t2 := pyLower b.title.toList
      t1 ≠ [] && t2 ≠ [] &&
        (let w1 := (splitWs t1).dedup
         let w2 := (splitWs t2).dedup
         w1.length > 3 && w2.length > 3 &&
           decide (thr ≤ ((w1.filter (· ∈ w2)).length : ℚ) / min w1.length w2.length)))

/-- Penalty tier applied to a similar historical article, keyed by how many
days ago it was first seen (`days_ago` stays 0 when `first_seen_at` is
missing). -/
def noveltyTier (daysAgo : ℤ) : ℚ :=
  if daysAgo ≤ 1 then 1/10 else if daysAgo ≤ 3 then 3/10 else 1/2

/-- The scan predicate of `NoveltyScorer.score`: a historical article with
a different id that is similar to the candidate. -/
def noveltyPred (thr : ℚ) (a r : Article) : Bool :=
  decide (r.id ≠ a.id) && isSimilar thr a r

/-- Embedding of `NoveltyScorer.score`: 1.0 with no historical context;
otherwise the first historical article with a different id that is similar
decides the score through its first-seen tier; 1.0 if none is found. -/
def noveltyScore (thr : ℚ) (a : Article) (ctx : Option (List Article)) : ℚ :=
  match ctx with
  | none => 1
  | some recents =>
    match recents.find? (noveltyPred thr a) with
    | none => 1
    | some r => noveltyTier (r.firstSeenDaysAgo.getD 0)

/-! ### Source and preference scorers (`scorers.py:65-71`, `217-250`). -/

/-- Embedding of `SourceScorer.score`: the source weight (default 1.0 when
the row lacks one) clamped to [0,1]. -/
def sourceScore (w : Option ℚ) : ℚ := max 0 (min 1 (w.getD 1))

/-- Substring containment on character lists, embedding Python's
`needle in haystack` for strings (an empty needle is contained in every
string). -/
def containsSub (needle hay : List Char) : Bool :=
  needle.isPrefixOf hay ||
    match hay with
    | [] => false
    | _ :: rest => containsSub needle rest

/-- Embedding of `PreferenceScorer.score`: base 0.5, plus 0.25 when the
non-empty lowercased outlet contains any preferred-outlet substring, plus
0.25 when the lowercased category is in the preferred-category list,
clamped to [0,1]. Preference lists are lowercased by the constructor. -/
def preferenceScore (prefOutlets prefCats : List String) (outlet category : String) : ℚ :=
  let po := prefOutlets.map (fun p => pyLower p.toList)
  let pc := prefCats.map strLower
  let o := pyLower outlet.toList
  let s1 : ℚ := 1/2 + (if o ≠ [] ∧ po.any (fun p => containsSub p o) then 1/4 else 0)
  let s2 : ℚ := s1 + (if pc.contains (strLower category) then 1/4 else 0)
  max 0 (min 1 s2)

/-! ### Recency scorer (embedding `RecencyScorer.score`, `scorers.py:42-62`),
over the reals. -/

/-- Embedding of `RecencyScorer.score`: a missing publication date yields
the neutral 0.5; otherwise exponential decay with the configured half-life,
clamped to [0,1]. -/
noncomputable def recencyScore (halfLifeHours : ℝ) (ageHours : Option ℝ) : ℝ :=
  match ageHours with
  | none => 1/2
  | some age => max 0 (min 1 (Real.exp (-(Real.log 2 / halfLifeHours) * age)))

/-! ### Ranking configuration and its load-time validation
(`config/models.py:27-50`, `config/loader.py:68-84`). Pydantic v2 runs
field validators only on explicitly provided values, never on applied
defaults; each weight field carries `ge=0, le=1` bounds, and the validator
on `novelty_weight` checks the sum of the four effective weights against
1.0 with tolerance 0.001. A field is embedded as `Option ℚ`: `none` means
the configuration file omits it and the default applies unvalidated. -/

/-- The four explicit ranking weights of `RankingConfig`. -/
structure RankingConfigW where
  recencyWeight : ℚ
  sourceWeight : ℚ
  topicWeight : ℚ
  noveltyWeight : ℚ
deriving DecidableEq

/-- The effective configuration after applying the field defaults
0.3 / 0.2 / 0.3 / 0.2 to omitted fields. -/
def effectiveConfig (r s t n : Option ℚ) : RankingConfigW :=
  ⟨r.getD (3/10), s.getD (1/5), t.getD (3/10), n.getD (1/5)⟩

/-- Range check `ge=0.0, le=1.0` on one weight field: enforced only when
the field is explicitly provided. -/
def fieldInRange (v : Option ℚ) : Bool :=
  match v with
  | none => true
  | some x => decide (0 ≤ x) && decide (x ≤ 1)

/-- Embedding of `RankingConfig.validate_weights`'s sum branch: the check
runs only while validating `novelty_weight`, hence only when that field is
explicitly provided; it compares the sum of the effective weights to 1.0
with tolerance 0.001. -/
def weightSumCheck (r s t n : Option ℚ) : Bool :=
  match n with
  | none => true
  | some nv =>
    decide (|r.getD (3/10) + s.getD (1/5) + t.getD (3/10) + nv - 1| ≤ 1/1000)

/-- Whether configuration load accepts the four ranking weight fields:
every provided field within [0,1] and, when `novelty_weight` is provided,
the effective weights summing to 1.0 within the tolerance. -/
def rankingConfigAccepted (r s t n : Option ℚ) : Bool :=
  fieldInRange r && fieldInRange s && fieldInRange t && fieldInRange n
    && weightSumCheck r s t n

/-! ### The combined per-article score (`ArticleRanker.score_article`,
`ranker.py:96-153`). The ranker fixes half-life 48 and novelty threshold
0.85; the preference weight is derived inline as one minus the four
configured weights. -/

/-- Keyword and preference lists handed to the scorers by the ranker's
constructor. -/
structure Prefs where
  boostKeywords : List String
  suppressKeywords : List String
  preferredOutlets : List String
  preferredCategories : List String

/-- Combined weighted total of `score_article`, over the reals: the five
component scores weighted by the four configured weights and the derived
preference weight `1 - (recency+source+topic+novelty)`. -/
noncomputable def scoreArticleTotal (cfg : RankingConfigW) (prefs : Prefs)
    (a : Article) (recents : List Article) : ℝ :=
  recencyScore 48 a.ageHours * (cfg.recencyWeight : ℝ)
    + (sourceScore a.sourceWeight : ℝ) * (cfg.sourceWeight : ℝ)
    + (topicScore prefs.boostKeywords prefs.suppressKeywords a.title
        (a.extractedContent.getD "") : ℝ) * (cfg.topicWeight : ℝ)
    + (noveltyScore (17/20) a (some recents) : ℝ) * (cfg.noveltyWeight : ℝ)
    + (preferenceScore prefs.preferredOutlets prefs.preferredCategories
        a.outlet a.category : ℝ)
      * ((1 : ℝ) - cfg.recencyWeight - cfg.sourceWeight - cfg.topicWeight
          - cfg.noveltyWeight)

/-! ### The ranking operation over storage (`ArticleRanker.rank_articles`,
`ranker.py:155-248`). The per-article scoring (`self.score_article`, with
the run-fixed historical window and source-category context applied) is
taken as a function parameter; the storage tables touched by the operation
are embedded as lists of rows. -/

/-- One scored article (`ArticleScore`), with exact rational scores. -/
structure ScoreRec where
  articleId : ℕ
  total : ℚ
  recency : ℚ
  source : ℚ
  topic : ℚ
  novelty : ℚ
  preference : ℚ
  reason : String
deriving DecidableEq

/-- The `score_json` payload written back for a selected article. -/
structure ScorePayload where
  total : ℚ
  recency : ℚ
  source : ℚ
  topic : ℚ
  novelty : ℚ
  preference : ℚ
  reason : String
deriving DecidableEq

/-- Payload assembled from a scored article in the update loop. -/
def payloadOf (sc : ScoreRec) : ScorePayload :=
  ⟨sc.total, sc.recency, sc.source, sc.topic, sc.novelty, sc.preference, sc.reason⟩

/-- A `run_articles` row: selection flag and score payload for one article
of one run. -/
structure RunArticleRow where
  runId : ℕ
  articleId : ℕ
  includedInRank : Bool
  scoreJson : Option ScorePayload
deriving DecidableEq

/-- The slice of storage visible to the ranking operation: the
`run_articles` rows it may update, the joined article rows per run served
by `get_run_articles`, and the recent-article rows served by
`get_recent_articles`. -/
structure RankDb where
  runArticleRows : List RunArticleRow
  runArticleData : List (ℕ × Article)
  recentArticles : List Article

/-- Embedding of `ArticleStorage.get_run_articles`: the article rows
joined to the given run. -/
def getRunArticles (db : RankDb) (runId : ℕ) : List Article :=
  (db.runArticleData.filter (fun p => p.1 == runId)).map (·.2)

/-- Result of a ranking pass (`RankingResult`): run id, number of articles
considered, and the ordered selected scores. -/
structure RankingResultM where
  runId : ℕ
  totalArticles : ℕ
  rankedArticles : List ScoreRec
deriving DecidableEq

/-- One step of the `UPDATE run_articles` loop: the statement matching on
`run_id` and `article_id` and setting the selection flag and payload. -/
def updateRow (runId : ℕ) (sc : ScoreRec) (row : RunArticleRow) : RunArticleRow :=
  if row.runId == runId && row.articleId == sc.articleId then
    { row with includedInRank := true, scoreJson := some (payloadOf sc) }
  else row

/-- Embedding of `ArticleRanker.rank_articles`: an empty article set
returns an empty result at once; otherwise every article is scored, scores
below `minScore` are discarded as they are produced, the remainder is
sorted by total descending with Python's stable sort, the first
`maxStories` are selected, and the update loop writes the selection flag
and score payload of each selected article back to its `run_articles` row
before the result is returned. -/
def rankArticles (score : Article → ScoreRec) (db : RankDb)
    (runId maxStories : ℕ) (minScore : ℚ) : RankingResultM × RankDb :=
  let articles := getRunArticles db runId
  if articles.isEmpty then
    (⟨runId, 0, []⟩, db)
  else
    let scored := (articles.map score).filter (fun sc => decide (minScore ≤ sc.total))
    let sorted := scored.mergeSort (fun a b => decide (b.total ≤ a.total))
    let selected := sorted.take maxStories
    let rows := selected.foldl
      (fun rows sc => rows.map (updateRow runId sc)) db.runArticleRows
    (⟨runId, articles.length, selected⟩, { db with runArticleRows := rows })

/-! ### Run store (`RunManager`, `db/runs.py`). Timestamps are abstract
ticks; the aggregate stats payload is distilled to the per-stage success
list the orchestrator reports. -/

/-- One row of the `runs` table. -/
structure RunRow where
  id : ℕ
  runDate : String
  startedAt : ℕ
  finishedAt : Option ℕ
  status : String
  statsJson : Option (List Bool)
deriving DecidableEq

/-- The `runs` table plus the serial id counter. -/
structure RunsDb where
  rows : List RunRow
  nextId : ℕ
deriving DecidableEq

/-- Embedding of the existence query of `create_run`: the row for the date
with the greatest `started_at`, if any. -/
def latestRunFor (db : RunsDb) (date : String) : Option RunRow :=
  (db.rows.filter (fun r => r.runDate == date)).foldl
    (fun acc r =>
      match acc with
      | none => some r
      | some a => if a.startedAt < r.startedAt then some r else acc) none

/-- Embedding of `RunManager.create_run`: reuse the existing row for the
date, overwriting its start timestamp and clearing finish, stats and
status back to `running`; insert a fresh `running` row only when none
exists. Returns the run id. -/
def createRun (db : RunsDb) (date : String) (startedAt : ℕ) : ℕ × RunsDb :=
  match latestRunFor db date with
  | some row =>
    (row.id, { db with rows := db.rows.map (fun r =>
      if r.id == row.id then
        { r with startedAt := startedAt, finishedAt := none,
                 status := "running", statsJson := none }
      else r) })
  | none =>
    (db.nextId,
     { rows := db.rows ++ [⟨db.nextId, date, startedAt, none, "running", none⟩],
       nextId := db.nextId + 1 })

/-- Embedding of `RunManager.update_run_status`. -/
def updateRunStatus (db : RunsDb) (runId : ℕ) (status : String)
    (stats : Option (List Bool)) (finishedAt : ℕ) : RunsDb :=
  { db with rows := db.rows.map (fun r =>
      if r.id == runId then
        { r with status := status, finishedAt := some finishedAt, statsJson := stats }
      else r) }

/-- Number of `runs` rows recorded for a logical date. -/
def countRunsFor (db : RunsDb) (date : String) : ℕ :=
  (db.rows.filter (fun r => r.runDate == date)).length

/-! ### Pipeline stage machine (`PipelineOrchestrator`,
`pipeline/orchestrator.py`). A stage body's interaction with its
collaborator is summarized by its outcome: completion with stats, or a
failure message (a raised exception caught at the stage boundary, or the
explicit empty-feed failure). Wall-clock readings are abstract increasing
ticks. -/

/-- Outcome of one stage body. -/
inductive StageOutcome where
  | ok (stats : List (String × ℤ))
  | err (msg : String)
deriving DecidableEq

/-- Mutable state of a `PipelineStage` object. -/
structure StageState where
  startTime : Option ℕ
  endTime : Option ℕ
  success : Bool
  error : Option String
  stats : List (String × ℤ)
deriving DecidableEq

/-- A stage as constructed by the orchestrator: not started, not
successful, no error, empty stats. -/
def initStage : StageState := ⟨none, none, false, none, []⟩

/-- Embedding of `_execute_pipeline`'s stage loop: each stage is started,
then completed or failed according to its outcome; the first failure
returns `False` immediately, leaving the remaining stages in their initial
state; if every stage completes, the result is the conjunction of the
success flags (then trivially true). Returns the stage states, the overall
flag and the final clock tick. -/
def execStages (t : ℕ) : List StageOutcome → List StageState × Bool × ℕ
  | [] => ([], true, t)
  | o :: rest =>
    let started : StageState := { initStage with startTime := some t }
    match o with
    | .ok stats =>
      let r := execStages (t + 2) rest
      ({ started with endTime := some (t + 1), success := true,
                      stats := stats } :: r.1, r.2.1, r.2.2)
    | .err e =>
      ({ started with endTime := some (t + 1), success := false,
                      error := some e } :: rest.map (fun _ => initStage),
       false, t + 2)

/-- Embedding of `PipelineOrchestrator.run`: create or reuse the run row
for the date, execute the stages, then record the terminal status
(`success` exactly when the stage loop returned true) and the per-stage
stats on the run row. Returns the overall flag, the run store and the
stage states. -/
def runPipeline (db : RunsDb) (date : String) (t0 : ℕ)
    (outcomes : List StageOutcome) : Bool × RunsDb × List StageState :=
  let cr := createRun db date t0
  let ex := execStages (t0 + 1) outcomes
  let db2 := updateRunStatus cr.2 cr.1 (if ex.2.1 then "success" else "failed")
    (some (ex.1.map (·.success))) ex.2.2
  (ex.2.1, db2, ex.1)

/-! ### Concrete instances used by witnesses and counterexamples. -/

/-- Empty keyword and preference lists (the default configuration). -/
def prefsNone : Prefs := ⟨[], [], [], []⟩

/-- An article published exactly at the scoring instant, from a
weight-1.0 source, with no extracted body. -/
def articleFresh : Article := ⟨1, "", none, none, "", some 1, some 0, none, none, "", ""⟩

/-- A weight configuration accepted by validation whose four weights sum
to 1.001 (inside the tolerance), making the derived preference weight
negative. -/
def cfgEdge : RankingConfigW := ⟨1, 1/1000, 0, 0⟩

/-- A candidate article with a canonical URL. -/
def articleDupA : Article :=
  ⟨1, "", some "https://e.com/x", none, "", none, none, none, none, "", ""⟩

/-- A historical article with the same canonical URL, first seen today. -/
def articleDupB : Article :=
  ⟨2, "", some "https://e.com/x", none, "", none, none, some 0, none, "", ""⟩

/-- A candidate article lacking a canonical URL, with content hash "h". -/
def articleNoUrl : Article := ⟨1, "", none, some "h", "", none, none, none, none, "", ""⟩

/-- A historical article sharing content hash "h", first seen 5 days ago. -/
def articleHashOld : Article :=
  ⟨2, "", some "u", some "h", "", none, none, some 5, none, "", ""⟩

/-- A historical article also lacking a canonical URL, first seen today. -/
def articleNoUrlRecent : Article := ⟨3, "", none, none, "", none, none, some 0, none, "", ""⟩

/-- A stored article row joined to run 1. -/
def articleStored : Article := ⟨10, "", none, none, "", none, none, none, none, "", ""⟩

/-- A concrete scoring function giving every article full scores. -/
def scoreConst : Article → ScoreRec := fun a => ⟨a.id, 1, 1, 1, 1, 1, 1, "scored"⟩

/-- A storage state with one unselected `run_articles` row for run 1. -/
def dbRank0 : RankDb := ⟨[⟨1, 10, false, none⟩], [(1, articleStored)], []⟩

/-- An empty run store. -/
def dbRuns0 : RunsDb := ⟨[], 0⟩

/-! ### Helper lemmas on clamping and the topic formula. -/

theorem clampQ_nonneg (x : ℚ) : 0 ≤ max 0 (min 1 x) := le_max_left _ _

theorem clampQ_le_one (x : ℚ) : max 0 (min 1 x) ≤ 1 :=
  max_le (by norm_num) (min_le_left _ _)

theorem clampR_nonneg (x : ℝ) : 0 ≤ max 0 (min 1 x) := le_max_left _ _

theorem clampR_le_one (x : ℝ) : max 0 (min 1 x) ≤ 1 :=
  max_le (by norm_num) (min_le_left _ _)

theorem rawKeywordScore_nonneg (kws : List String) (title content : String) :
    0 ≤ rawKeywordScore kws title content := by
  apply List.sum_nonneg
  intro x hx
  simp only [rawKeywordScore, List.mem_map] at hx
  obtain ⟨kw, _, rfl⟩ := hx
  positivity

theorem normCap (x c : ℚ) (hx : 0 ≤ x) (_hc : 0 < c) :
    (if x > 0 then min 1 (x / c) else x) = min 1 (x / c) := by
  by_cases h : x > 0
  · rw [if_pos h]
  · have hx0 : x = 0 := le_antisymm (not_lt.mp h) hx
    subst hx0
    simp

theorem topicScore_eq (bks sks : List String) (title content : String) :
    topicScore bks sks title content =
      max 0 (min 1 ((1 : ℚ)/2
        + min 1 (rawKeywordScore bks title content / 10) * (1/2)
        - min 1 (rawKeywordScore sks title content / 5) * (1/2))) := by
  simp only [topicScore]
  rw [normCap _ _ (rawKeywordScore_nonneg bks title content) (by norm_num),
      normCap _ _ (rawKeywordScore_nonneg sks title content) (by norm_num)]

theorem rawKeywordScore_nil (title content : String) :
    rawKeywordScore [] title content = 0 := by
  simp [rawKeywordScore]

theorem topicScore_nil (title content : String) :
    topicScore [] [] title content = 1/2 := by
  rw [topicScore_eq, rawKeywordScore_nil]
  norm_num

/-! ### Claim C9: recency monotonicity and the missing-date neutral. -/

/-- Claim C9: for a fixed positive half-life, the recency score is
monotonically non-increasing in the article's age, and an article with no
publication date scores exactly the neutral 0.5. -/
theorem recency_monotone_and_neutral (H a b : ℝ) (hH : 0 < H) (hab : a ≤ b) :
    recencyScore H (some b) ≤ recencyScore H (some a) ∧
      recencyScore H none = 1/2 := by
  refine ⟨?_, rfl⟩
  unfold recencyScore
  have hc : 0 ≤ Real.log 2 / H := le_of_lt (div_pos (Real.log_pos (by norm_num)) hH)
  have hm : -(Real.log 2 / H) * b ≤ -(Real.log 2 / H) * a :=
    mul_le_mul_of_nonpos_left hab (neg_nonpos.mpr hc)
  exact max_le_max le_rfl (min_le_min le_rfl (Real.exp_le_exp.mpr hm))

/-- Witness for C9 at half-life 48 and ages 5 ≤ 7 hours. -/
theorem recency_monotone_and_neutral_witness :
    recencyScore 48 (some 7) ≤ recencyScore 48 (some 5) ∧
      recencyScore 48 none = 1/2 :=
  recency_monotone_and_neutral 48 5 7 (by norm_num) (by norm_num)

/-! ### Claim C1: the weight-sum invariant at configuration load. -/

/-- Claim C1 (failing input): a configuration that sets
`recency_weight: 0.9, source_weight: 0.2, topic_weight: 0.3` and omits
`novelty_weight` is accepted by configuration load, although its four
effective weights sum to 1.6, far outside the 1e-3 tolerance: the sum
validator is attached to `novelty_weight` and pydantic does not run
validators on defaulted fields, so the check is skipped. -/
theorem config_sum_check_skipped :
    rankingConfigAccepted (some (9/10)) (some (1/5)) (some (3/10)) none = true ∧
    (effectiveConfig (some (9/10)) (some (1/5)) (some (3/10)) none).recencyWeight
      + (effectiveConfig (some (9/10)) (some (1/5)) (some (3/10)) none).sourceWeight
      + (effectiveConfig (some (9/10)) (some (1/5)) (some (3/10)) none).topicWeight
      + (effectiveConfig (some (9/10)) (some (1/5)) (some (3/10)) none).noveltyWeight
        = 8/5 ∧
    ¬ (|(8/5 : ℚ) - 1| ≤ 1/1000) := by
  refine ⟨?_, ?_, fun h => by have h2 := (abs_le.mp h).2; norm_num at h2⟩
  · simp only [rankingConfigAccepted, fieldInRange, weightSumCheck,
      Bool.and_eq_true, decide_eq_true_eq]
    norm_num
  · simp only [effectiveConfig, Option.getD_some, Option.getD_none]
    norm_num

/-! ### Claim C6: the topic score. -/

/-- Claim C6: with no keywords every article scores a neutral 0.5; the
topic score always equals `0.5 + 0.5*boost_norm - 0.5*suppress_norm`
clamped to [0,1] with boost normalized by 10 and suppression by 5 (both
capped at 1); a boost keyword matched twice in the title and once in the
body, absent suppression, scores exactly 0.75; and keyword matching is
whole-word and case-insensitive (the literal "gpt" matches "GPT" and the
"gpt" of "gpt-4" but not the fragment inside "gpts"). -/
theorem topic_score_spec :
    (∀ title content, topicScore [] [] title content = 1/2) ∧
    (∀ bks sks title content,
      topicScore bks sks title content =
        max 0 (min 1 ((1 : ℚ)/2
          + min 1 (rawKeywordScore bks title content / 10) * (1/2)
          - min 1 (rawKeywordScore sks title content / 5) * (1/2)))) ∧
    (∀ kw title content,
      countMatches (strLower kw) title = 2 → countMatches (strLower kw) content = 1 →
        topicScore [kw] [] title content = 3/4) ∧
    countMatches "gpt" "GPT says: gpt-4 beats gpts" = 2 := by
  refine ⟨topicScore_nil, topicScore_eq, ?_, by decide⟩
  intro kw title content h1 h2
  have hraw : rawKeywordScore [kw] title content = 5 := by
    simp only [rawKeywordScore, List.map_cons, List.map_nil, List.dedup_cons_of_not_mem,
      List.not_mem_nil, not_false_iff, List.dedup_nil, h1, h2, List.sum_cons,
      List.sum_nil]
    norm_num
  rw [topicScore_eq, hraw, rawKeywordScore_nil]
  norm_num

/-- Witness for C6's 0.75 example at keyword "gpt", a title matching it
twice and a body matching it once. -/
theorem topic_score_spec_witness :
    topicScore ["gpt"] [] "gpt vs gpt" "the gpt era" = 3/4 :=
  topic_score_spec.2.2.1 "gpt" "gpt vs gpt" "the gpt era" (by decide) (by decide)

/-! ### Claims C5 and C10: the novelty score. -/

theorem noveltyTier_le_half (d : ℤ) : noveltyTier d ≤ 1/2 := by
  unfold noveltyTier
  split_ifs <;> norm_num

theorem noveltyTier_ne_one (d : ℤ) : noveltyTier d ≠ 1 := by
  unfold noveltyTier
  split_ifs <;> norm_num

theorem isSimilar_of_url (thr : ℚ) (a b : Article)
    (h : a.canonicalUrl = b.canonicalUrl) : isSimilar thr a b = true := by
  simp [isSimilar, h]

/-- Claim C5: a candidate sharing its canonical URL with a distinct
historical article scores at most 0.5, and exactly 0.1 when that article
was first seen at most one day ago; any first similar match short-circuits
the scan and fixes the score at its first-seen tier (0.1 / 0.3 / 0.5);
with no similar match, or no historical context at all, the score is
1.0. -/
theorem novelty_spec (thr : ℚ) (a r : Article) (rest recents : List Article) :
    (a.id ≠ r.id → a.canonicalUrl = r.canonicalUrl →
        noveltyScore thr a (some [r]) ≤ 1/2) ∧
    (a.id ≠ r.id → a.canonicalUrl = r.canonicalUrl →
        r.firstSeenDaysAgo.getD 0 ≤ 1 →
        noveltyScore thr a (some [r]) = 1/10) ∧
    (r.id ≠ a.id → isSimilar thr a r = true →
        noveltyScore thr a (some (r :: rest)) =
          noveltyTier (r.firstSeenDaysAgo.getD 0)) ∧
    ((∀ x ∈ recents, x.id = a.id ∨ isSimilar thr a x = false) →
        noveltyScore thr a (some recents) = 1) ∧
    noveltyScore thr a none = 1 := by
  have hfirst : ∀ (x : Article) (l : List Article), x.id ≠ a.id →
      isSimilar thr a x = true →
      noveltyScore thr a (some (x :: l)) = noveltyTier (x.firstSeenDaysAgo.getD 0) := by
    intro x l hid hsim
    have hp : noveltyPred thr a x = true := by
      simp [noveltyPred, hid, hsim]
    simp [noveltyScore, List.find?_cons_of_pos _ hp]
  refine ⟨?_, ?_, hfirst r rest, ?_, rfl⟩
  · intro hid hurl
    rw [hfirst r [] (Ne.symm hid) (isSimilar_of_url thr a r hurl)]
    exact noveltyTier_le_half _
  · intro hid hurl hdays
    rw [hfirst r [] (Ne.symm hid) (isSimilar_of_url thr a r hurl)]
    exact if_pos hdays
  · intro hall
    have hnone : recents.find? (noveltyPred thr a) = none := by
      rw [List.find?_eq_none]
      intro x hx
      rcases hall x hx with h | h
      · simp [noveltyPred, h]
      · simp [noveltyPred, h]
    simp [noveltyScore, hnone]

/-- Witness for C5: two distinct articles sharing a canonical URL, the
historical one first seen today, give novelty 0.1. -/
theorem novelty_spec_witness :
    noveltyScore (17/20) articleDupA (some [articleDupB]) = 1/10 :=
  (novelty_spec (17/20) articleDupA articleDupB [] []).2.1 (by decide) rfl (by decide)

/-- Counterexample for C10 as stated: the candidate lacks a canonical URL
and its window contains a distinct article also lacking one, first seen
today — yet the score is 0.5, not 0.1, because an earlier window entry
matching by content hash (first seen 5 days ago) short-circuits the
scan. -/
theorem novelty_first_match_overrides :
    articleNoUrl.canonicalUrl = none ∧
    articleNoUrlRecent ∈ [articleHashOld, articleNoUrlRecent] ∧
    articleNoUrlRecent.id ≠ articleNoUrl.id ∧
    articleNoUrlRecent.canonicalUrl = none ∧
    articleNoUrlRecent.firstSeenDaysAgo.getD 0 ≤ 1 ∧
    noveltyScore (17/20) articleNoUrl (some [articleHashOld, articleNoUrlRecent])
      = 1/2 ∧
    ((1 : ℚ)/2 ≠ 1/10) := by
  refine ⟨rfl, by simp, by decide, rfl, by decide, ?_, by norm_num⟩
  rfl

/-- Claim C10 (amended): canonical URLs are compared with a missing-key
default, so two articles both lacking one are similar; hence a candidate
without a canonical URL whose window holds a distinct article also
without one scores at most 0.5 and never 1.0 — and exactly 0.1 when every
similar window entry (the first found decides) was first seen at most one
day ago or has no first-seen timestamp. -/
theorem novelty_missing_url_matches (thr : ℚ) (a : Article)
    (recents : List Article) (ha : a.canonicalUrl = none)
    (hr : ∃ r ∈ recents, r.id ≠ a.id ∧ r.canonicalUrl = none) :
    noveltyScore thr a (some recents) ≤ 1/2 ∧
    noveltyScore thr a (some recents) ≠ 1 ∧
    ((∀ x ∈ recents, x.id ≠ a.id → isSimilar thr a x = true →
        x.firstSeenDaysAgo.getD 0 ≤ 1) →
      noveltyScore thr a (some recents) = 1/10) := by
  obtain ⟨r, hmem, hid, hurl⟩ := hr
  have hsome : (recents.find? (noveltyPred thr a)).isSome := by
    rw [List.find?_isSome]
    exact ⟨r, hmem, by
      simp [noveltyPred, hid, isSimilar_of_url thr a r (ha.trans hurl.symm)]⟩
  cases hfind : recents.find? (noveltyPred thr a) with
  | none => rw [hfind] at hsome; simp at hsome
  | some r' =>
    have hp := List.find?_some hfind
    rw [noveltyPred, Bool.and_eq_true, decide_eq_true_eq] at hp
    have hmem' := List.mem_of_find?_eq_some hfind
    have hval : noveltyScore thr a (some recents) = noveltyTier (r'.firstSeenDaysAgo.getD 0) := by
      simp [noveltyScore, hfind]
    refine ⟨hval ▸ noveltyTier_le_half _, hval ▸ noveltyTier_ne_one _, ?_⟩
    intro hall
    rw [hval]
    exact if_pos (hall r' hmem' hp.1 hp.2)

/-- Witness for the amended C10 at a candidate without a canonical URL and
a window containing only a distinct no-URL article first seen today. -/
theorem novelty_missing_url_matches_witness :
    noveltyScore (17/20) articleNoUrl (some [articleNoUrlRecent]) = 1/10 :=
  (novelty_missing_url_matches (17/20) articleNoUrl [articleNoUrlRecent] rfl
    ⟨articleNoUrlRecent, by simp, by decide, rfl⟩).2.2
    (by
      intro x hx _ _
      simp only [List.mem_singleton] at hx
      subst hx
      decide)

/-! ### Claim C8: one run record per logical date. -/

theorem latestRunFor_aux_ne_none (l : List RunRow) (a : RunRow) :
    l.foldl (fun acc r =>
      match acc with
      | none => some r
      | some x => if x.startedAt < r.startedAt then some r else acc) (some a) ≠ none := by
  induction l generalizing a with
  | nil => simp
  | cons r l ih =>
    simp only [List.foldl_cons]
    split
    · exact ih r
    · exact ih a

theorem latestRunFor_none (db : RunsDb) (date : String)
    (h : latestRunFor db date = none) :
    db.rows.filter (fun r => r.runDate == date) = [] := by
  cases hf : db.rows.filter (fun r => r.runDate == date) with
  | nil => rfl
  | cons x xs =>
    exfalso
    unfold latestRunFor at h
    rw [hf] at h
    simp only [List.foldl_cons] at h
    exact latestRunFor_aux_ne_none xs x h

theorem latestRunFor_mem (db : RunsDb) (date : String) (row : RunRow)
    (h : latestRunFor db date = some row) :
    row ∈ db.rows ∧ row.runDate = date := by
  have key : ∀ (l : List RunRow) (acc : Option RunRow),
      l.foldl (fun acc r =>
        match acc with
        | none => some r
        | some x => if x.startedAt < r.startedAt then some r else acc) acc = some row →
      acc = some row ∨ row ∈ l := by
    intro l
    induction l with
    | nil => intro acc h; exact Or.inl h
    | cons r l ih =>
      intro acc h
      simp only [List.foldl_cons] at h
      rcases ih _ h with h2 | h2
      · cases acc with
        | none =>
          simp only at h2
          exact Or.inr (by rw [Option.some_inj] at h2; rw [← h2]; exact List.mem_cons_self r l)
        | some x =>
          simp only at h2
          split at h2
          · exact Or.inr (by rw [Option.some_inj] at h2; rw [← h2]; exact List.mem_cons_self r l)
          · exact Or.inl h2
      · exact Or.inr (List.mem_cons_of_mem r h2)
  unfold latestRunFor at h
  rcases key _ _ h with h2 | h2
  · cases h2
  · have := List.mem_filter.mp h2
    exact ⟨this.1, by simpa using this.2⟩

theorem countRunsFor_map (db : RunsDb) (date : String) (f : RunRow → RunRow)
    (n : ℕ) (hf : ∀ r, (f r).runDate = r.runDate) :
    countRunsFor ⟨db.rows.map f, n⟩ date = countRunsFor db date := by
  unfold countRunsFor
  rw [← List.countP_eq_length_filter, ← List.countP_eq_length_filter, List.countP_map]
  congr 1
  funext r
  simp [Function.comp, hf r]

theorem createRun_count (db : RunsDb) (date : String) (t : ℕ)
    (h : countRunsFor db date ≤ 1) :
    countRunsFor (createRun db date t).2 date = 1 := by
  unfold createRun
  cases hl : latestRunFor db date with
  | none =>
    have hf := latestRunFor_none db date hl
    simp only
    unfold countRunsFor
    simp only [List.filter_append, hf, List.nil_append]
    simp
  | some row =>
    simp only
    have hrow := latestRunFor_mem db date row hl
    have hcnt := countRunsFor_map db date
      (fun r => if r.id == row.id then
        { r with startedAt := t, finishedAt := none,
                 status := "running", statsJson := none }
      else r) db.nextId
      (by intro r; dsimp only; split <;> rfl)
    rw [hcnt]
    refine le_antisymm h ?_
    unfold countRunsFor
    have : row ∈ db.rows.filter (fun r => r.runDate == date) :=
      List.mem_filter.mpr ⟨hrow.1, by simp [hrow.2]⟩
    exact List.length_pos.mpr (List.ne_nil_of_mem this)

theorem updateRunStatus_count (db : RunsDb) (date : String) (runId : ℕ)
    (status : String) (stats : Option (List Bool)) (tEnd : ℕ) :
    countRunsFor (updateRunStatus db runId status stats tEnd) date
      = countRunsFor db date := by
  unfold updateRunStatus
  exact countRunsFor_map db date
    (fun r => if r.id == runId then
      { r with status := status, finishedAt := some tEnd, statsJson := stats }
    else r) db.nextId (by intro r; dsimp only; split <;> rfl)

theorem runPipeline_count (db : RunsDb) (date : String) (t0 : ℕ)
    (outcomes : List StageOutcome) (h : countRunsFor db date ≤ 1) :
    countRunsFor (runPipeline db date t0 outcomes).2.1 date = 1 := by
  unfold runPipeline
  simp only
  rw [updateRunStatus_count]
  exact createRun_count db date t0 h

/-- Claim C8: running the pipeline any number of times for one logical
date leaves exactly one run record for that date; a re-run finds the
existing record and overwrites its start timestamp, clears its finish
timestamp and stats, and resets its status to running, inserting nothing
(row count unchanged). -/
theorem run_record_unique (db : RunsDb) (date : String) (t : ℕ)
    (h : countRunsFor db date ≤ 1) :
    countRunsFor (createRun db date t).2 date = 1 ∧
    (∀ row, latestRunFor db date = some row →
      (createRun db date t).2.rows = db.rows.map (fun r =>
        if r.id == row.id then
          { r with startedAt := t, finishedAt := none,
                   status := "running", statsJson := none }
        else r) ∧
      (createRun db date t).2.rows.length = db.rows.length) ∧
    (∀ runs : List (ℕ × List StageOutcome), countRunsFor db date = 0 → runs ≠ [] →
      countRunsFor
        (runs.foldl (fun d p => (runPipeline d date p.1 p.2).2.1) db) date = 1) := by
  refine ⟨createRun_count db date t h, ?_, ?_⟩
  · intro row hrow
    unfold createRun
    rw [hrow]
    exact ⟨rfl, by simp⟩
  · intro runs h0 hne
    have keep : ∀ (l : List (ℕ × List StageOutcome)) (d : RunsDb),
        countRunsFor d date = 1 →
        countRunsFor (l.foldl (fun d p => (runPipeline d date p.1 p.2).2.1) d) date = 1 := by
      intro l
      induction l with
      | nil => intro d hd; exact hd
      | cons p l ih =>
        intro d hd
        simp only [List.foldl_cons]
        exact ih _ (runPipeline_count d date p.1 p.2 (le_of_eq hd))
    cases runs with
    | nil => exact absurd rfl hne
    | cons p l =>
      simp only [List.foldl_cons]
      exact keep l _ (runPipeline_count db date p.1 p.2 (by rw [h0]; norm_num))

/-- Witness for C8 at the empty run store and two pipeline invocations. -/
theorem run_record_unique_witness :
    countRunsFor
      ([((5 : ℕ), ([] : List StageOutcome)), (9, [])].foldl
        (fun d p => (runPipeline d "2025-01-01" p.1 p.2).2.1) dbRuns0)
      "2025-01-01" = 1 :=
  (run_record_unique dbRuns0 "2025-01-01" 0 (by decide)).2.2
    [(5, []), (9, [])] (by decide) (by decide)

/-! ### Claim C7: fail-fast stage sequencing and overall status. -/

theorem execStages_length (t : ℕ) (l : List StageOutcome) :
    (execStages t l).1.length = l.length := by
  induction l generalizing t with
  | nil => rfl
  | cons o rest ih =>
    cases o with
    | ok stats => simp [execStages, ih]
    | err e => simp [execStages]

theorem execStages_err (t : ℕ) (l : List StageOutcome) (k : ℕ) (e : String)
    (hk : l[k]? = some (.err e))
    (hpre : ∀ j, j < k → ∃ st, l[j]? = some (.ok st)) :
    (execStages t l).2.1 = false ∧
    (∀ j, k < j → j < l.length → (execStages t l).1[j]? = some initStage) := by
  induction l generalizing t k with
  | nil => simp at hk
  | cons o rest ih =>
    cases k with
    | zero =>
      simp only [List.getElem?_cons_zero, Option.some_inj] at hk
      subst hk
      refine ⟨rfl, ?_⟩
      intro j hj hlen
      cases j with
      | zero => omega
      | succ j' =>
        simp only [execStages, List.getElem?_cons_succ, List.getElem?_map]
        have : j' < rest.length := by simp at hlen; omega
        rw [List.getElem?_eq_getElem this]
        rfl
    | succ k' =>
      obtain ⟨st, hst⟩ := hpre 0 (Nat.succ_pos k')
      simp only [List.getElem?_cons_zero, Option.some_inj] at hst
      subst hst
      simp only [List.getElem?_cons_succ] at hk
      have hpre' : ∀ j, j < k' → ∃ st, rest[j]? = some (.ok st) := by
        intro j hj
        have := hpre (j + 1) (by omega)
        simpa using this
      obtain ⟨hb, hrest⟩ := ih (t + 2) k' hk hpre'
      refine ⟨by simpa [execStages] using hb, ?_⟩
      intro j hj hlen
      cases j with
      | zero => omega
      | succ j' =>
        simp only [execStages, List.getElem?_cons_succ]
        exact hrest j' (by omega) (by simpa using hlen)

theorem execStages_true_iff (t : ℕ) (l : List StageOutcome) :
    (execStages t l).2.1 = true ↔
      ∀ st ∈ (execStages t l).1, st.success = true := by
  induction l generalizing t with
  | nil => simp [execStages]
  | cons o rest ih =>
    cases o with
    | ok stats =>
      simp only [execStages, List.mem_cons]
      rw [ih (t + 2)]
      constructor
      · intro h st hst
        rcases hst with h2 | h2
        · subst h2; rfl
        · exact h st h2
      · intro h st hst
        exact h st (Or.inr hst)
    | err e =>
      simp only [execStages]
      constructor
      · intro h; cases h
      · intro h
        have := h _ (List.mem_cons_self _ _)
        simp at this

theorem execStages_times (t : ℕ) (l : List StageOutcome) (j : ℕ) (st : StageState)
    (h : (execStages t l).1[j]? = some st) :
    (st.startTime = none ∧ st.endTime = none) ∨
    (st.startTime = some (t + 2*j) ∧ st.endTime = some (t + 2*j + 1)) := by
  induction l generalizing t j with
  | nil => simp [execStages] at h
  | cons o rest ih =>
    cases o with
    | ok stats =>
      cases j with
      | zero =>
        simp only [execStages, List.getElem?_cons_zero, Option.some_inj] at h
        subst h
        right
        constructor <;> simp [initStage]
      | succ j' =>
        simp only [execStages, List.getElem?_cons_succ] at h
        rcases ih (t + 2) j' h with h2 | h2
        · exact Or.inl h2
        · right
          refine ⟨?_, ?_⟩ <;> [rw [h2.1]; rw [h2.2]] <;> congr 1 <;> ring
    | err e =>
      cases j with
      | zero =>
        simp only [execStages, List.getElem?_cons_zero, Option.some_inj] at h
        subst h
        right
        constructor <;> simp [initStage]
      | succ j' =>
        simp only [execStages, List.getElem?_cons_succ, List.getElem?_map] at h
        cases h2 : rest[j']? with
        | none => rw [h2] at h; simp at h
        | some x =>
          rw [h2, Option.map_some'] at h
          rw [Option.some_inj] at h
          subst h
          left
          exact ⟨rfl, rfl⟩

theorem execStages_seq (t : ℕ) (l : List StageOutcome) (i j : ℕ)
    (sI sJ : StageState) (s : ℕ) (hij : i < j)
    (hi : (execStages t l).1[i]? = some sI)
    (hj : (execStages t l).1[j]? = some sJ)
    (hs : sJ.startTime = some s) :
    ∃ eT, sI.endTime = some eT ∧ eT ≤ s := by
  induction l generalizing t i j with
  | nil => simp [execStages] at hi
  | cons o rest ih =>
    cases j with
    | zero => omega
    | succ j' =>
      cases o with
      | err e =>
        simp only [execStages, List.getElem?_cons_succ, List.getElem?_map] at hj
        cases h2 : rest[j']? with
        | none => rw [h2] at hj; simp at hj
        | some x =>
          rw [h2, Option.map_some'] at hj
          rw [Option.some_inj] at hj
          subst hj
          simp [initStage] at hs
      | ok stats =>
        simp only [execStages, List.getElem?_cons_succ] at hj
        cases i with
        | zero =>
          simp only [execStages, List.getElem?_cons_zero, Option.some_inj] at hi
          subst hi
          refine ⟨t + 1, rfl, ?_⟩
          rcases execStages_times (t + 2) rest j' sJ hj with h2 | h2
          · rw [h2.1] at hs; cases hs
          · rw [h2.1] at hs
            rw [Option.some_inj] at hs
            omega
        | succ i' =>
          simp only [execStages, List.getElem?_cons_succ] at hi
          exact ih (t + 2) i' j' (by omega) hi hj

theorem runRow_exists (db : RunsDb) (date : String) (t0 : ℕ) :
    ∃ row ∈ (createRun db date t0).2.rows,
      row.id = (createRun db date t0).1 ∧ row.runDate = date := by
  unfold createRun
  cases hl : latestRunFor db date with
  | none =>
    refine ⟨⟨db.nextId, date, t0, none, "running", none⟩, ?_, rfl, rfl⟩
    simp
  | some row0 =>
    have hmem := latestRunFor_mem db date row0 hl
    simp only
    refine ⟨⟨row0.id, row0.runDate, t0, none, "running", none⟩, ?_, rfl, hmem.2⟩
    rw [List.mem_map]
    exact ⟨row0, hmem.1, by simp⟩

theorem runPipeline_row_status (db : RunsDb) (date : String) (t0 : ℕ)
    (outcomes : List StageOutcome) :
    ∃ row ∈ (runPipeline db date t0 outcomes).2.1.rows,
      row.runDate = date ∧
      row.status =
        (if (execStages (t0 + 1) outcomes).2.1 then "success" else "failed") := by
  obtain ⟨row, hmem, hid, hdate⟩ := runRow_exists db date t0
  unfold runPipeline updateRunStatus
  simp only
  refine ⟨⟨row.id, row.runDate, row.startedAt,
      some (execStages (t0 + 1) outcomes).2.2,
      (if (execStages (t0 + 1) outcomes).2.1 then "success" else "failed"),
      some ((execStages (t0 + 1) outcomes).1.map (·.success))⟩,
    ?_, hdate, rfl⟩
  rw [List.mem_map]
  refine ⟨row, hmem, ?_⟩
  rw [if_pos (by simp [hid])]

/-- Claim C7: if the stage at position k fails (all earlier stages having
completed), every later stage stays in its initial not-started state with
no start time, the overall result is false and the run record for the date
ends with status "failed"; a stage only starts after every earlier stage
has ended (its start tick is at or after their end ticks); and the overall
result is true exactly when every stage succeeded. -/
theorem pipeline_fail_fast (db : RunsDb) (date : String) (t0 : ℕ)
    (outcomes : List StageOutcome) :
    (∀ k e, outcomes[k]? = some (.err e) →
       (∀ j, j < k → ∃ st, outcomes[j]? = some (.ok st)) →
       (runPipeline db date t0 outcomes).1 = false ∧
       (∀ j, k < j → j < outcomes.length →
          (runPipeline db date t0 outcomes).2.2[j]? = some initStage) ∧
       (∃ row ∈ (runPipeline db date t0 outcomes).2.1.rows,
          row.runDate = date ∧ row.status = "failed")) ∧
    (∀ (i j : ℕ) (sI sJ : StageState) (s : ℕ), i < j →
       (runPipeline db date t0 outcomes).2.2[i]? = some sI →
       (runPipeline db date t0 outcomes).2.2[j]? = some sJ →
       sJ.startTime = some s →
       ∃ eT, sI.endTime = some eT ∧ eT ≤ s) ∧
    ((runPipeline db date t0 outcomes).1 = true ↔
       ∀ st ∈ (runPipeline db date t0 outcomes).2.2, st.success = true) := by
  have hfst : (runPipeline db date t0 outcomes).1 = (execStages (t0 + 1) outcomes).2.1 := rfl
  have hstates : (runPipeline db date t0 outcomes).2.2 = (execStages (t0 + 1) outcomes).1 := rfl
  refine ⟨?_, ?_, ?_⟩
  · intro k e hk hpre
    obtain ⟨hb, hrest⟩ := execStages_err (t0 + 1) outcomes k e hk hpre
    refine ⟨hfst.trans hb, ?_, ?_⟩
    · intro j hj hlen
      rw [hstates]
      exact hrest j hj hlen
    · obtain ⟨row, hmem, hdate, hstatus⟩ := runPipeline_row_status db date t0 outcomes
      rw [hb, if_neg (by simp)] at hstatus
      exact ⟨row, hmem, hdate, hstatus⟩
  · intro i j sI sJ s hij hi hj hs
    rw [hstates] at hi hj
    exact execStages_seq (t0 + 1) outcomes i j sI sJ s hij hi hj hs
  · rw [hfst, hstates]
    exact execStages_true_iff (t0 + 1) outcomes

/-- Witness for C7: a three-stage run whose second stage fails returns
false overall. -/
theorem pipeline_fail_fast_witness :
    (runPipeline dbRuns0 "2025-01-02" 0
      [.ok [], .err "boom", .ok []]).1 = false :=
  ((pipeline_fail_fast dbRuns0 "2025-01-02" 0 [.ok [], .err "boom", .ok []]).1
    1 "boom" rfl
    (fun j hj => by
      have hj0 : j = 0 := Nat.lt_one_iff.mp hj
      subst hj0
      exact ⟨[], rfl⟩)).1

/-! ### Claim C2: the selection pipeline of `rank_articles`. -/

/-- Claim C2: the ranking operation returns at most `maxStories` articles;
every returned article clears the minimum score; the returned list is
sorted by total descending; and it is exactly the threshold-filtered
scored list arranged in the unique order "total descending, ties by input
position", truncated after sorting (so the threshold is applied before
truncation and ties are never randomized). -/
theorem rank_selection (score : Article → ScoreRec) (db : RankDb)
    (runId maxStories : ℕ) (minScore : ℚ) :
    (rankArticles score db runId maxStories minScore).1.rankedArticles.length
        ≤ maxStories ∧
    (∀ sc ∈ (rankArticles score db runId maxStories minScore).1.rankedArticles,
        minScore ≤ sc.total) ∧
    (rankArticles score db runId maxStories minScore).1.rankedArticles.Pairwise
        (fun a b => b.total ≤ a.total) ∧
    (∃ sortedE : List (ℕ × ScoreRec),
      sortedE.Perm (((getRunArticles db runId).map score).filter
        (fun sc => decide (minScore ≤ sc.total))).enum ∧
      sortedE.Pairwise (fun a b =>
        b.2.total < a.2.total ∨ (a.2.total = b.2.total ∧ a.1 < b.1)) ∧
      (rankArticles score db runId maxStories minScore).1.rankedArticles
        = (sortedE.take maxStories).map (·.2)) := by
  cases hemp : (getRunArticles db runId).isEmpty with
  | true =>
    have harts : getRunArticles db runId = [] := by
      rwa [List.isEmpty_iff] at hemp
    have hsel : (rankArticles score db runId maxStories minScore).1.rankedArticles = [] := by
      simp [rankArticles, hemp]
    rw [hsel]
    refine ⟨by simp, by simp, by simp, [], by simp [harts], by simp, by simp⟩
  | false =>
    have hsel : (rankArticles score db runId maxStories minScore).1.rankedArticles
        = ((((getRunArticles db runId).map score).filter
            (fun sc => decide (minScore ≤ sc.total))).mergeSort
            (fun a b => decide (b.total ≤ a.total))).take maxStories := by
      simp [rankArticles, hemp]
    have htrans : ∀ a b c : ScoreRec,
        (fun a b => decide (b.total ≤ a.total)) a b = true →
        (fun a b => decide (b.total ≤ a.total)) b c = true →
        (fun a b => decide (b.total ≤ a.total)) a c = true := by
      intro a b c h1 h2
      simp only [decide_eq_true_eq] at h1 h2 ⊢
      exact le_trans h2 h1
    have htotal : ∀ a b : ScoreRec,
        ((fun a b => decide (b.total ≤ a.total)) a b
          || (fun a b => decide (b.total ≤ a.total)) b a) = true := by
      intro a b
      rcases le_total a.total b.total with h | h <;> simp [h]
    rw [hsel]
    refine ⟨List.length_take_le _ _, ?_, ?_, ?_⟩
    · intro sc hsc
      have h1 : sc ∈ (((getRunArticles db runId).map score).filter
          (fun sc => decide (minScore ≤ sc.total))).mergeSort
          (fun a b => decide (b.total ≤ a.total)) := List.take_subset _ _ hsc
      rw [List.mem_mergeSort] at h1
      have h2 := (List.mem_filter.mp h1).2
      rwa [decide_eq_true_eq] at h2
    · have hsorted := List.sorted_mergeSort htrans htotal
        (((getRunArticles db runId).map score).filter
          (fun sc => decide (minScore ≤ sc.total)))
      have := hsorted.sublist (List.take_sublist maxStories _)
      exact this.imp (fun h => by simpa using h)
    · refine ⟨(((getRunArticles db runId).map score).filter
          (fun sc => decide (minScore ≤ sc.total))).enum.mergeSort
          (List.enumLE (fun a b => decide (b.total ≤ a.total))), ?_, ?_, ?_⟩
      · exact List.mergeSort_perm _ _
      · have hsorted := List.sorted_mergeSort
          (fun a b c => List.enumLE_trans htrans a b c)
          (fun a b => List.enumLE_total htotal a b)
          (((getRunArticles db runId).map score).filter
            (fun sc => decide (minScore ≤ sc.total))).enum
        have hperm := List.mergeSort_perm
          (((getRunArticles db runId).map score).filter
            (fun sc => decide (minScore ≤ sc.total))).enum
          (List.enumLE (fun a b => decide (b.total ≤ a.total)))
        have hnodup : (List.map Prod.fst
            ((((getRunArticles db runId).map score).filter
              (fun sc => decide (minScore ≤ sc.total))).enum.mergeSort
              (List.enumLE (fun a b => decide (b.total ≤ a.total))))).Nodup := by
          refine ((hperm.map Prod.fst).symm).nodup ?_
          rw [List.enum_map_fst]
          exact List.nodup_range _
        have hne : (((getRunArticles db runId).map score).filter
            (fun sc => decide (minScore ≤ sc.total))).enum.mergeSort
            (List.enumLE (fun a b => decide (b.total ≤ a.total)))
            |>.Pairwise (fun a b => a.1 ≠ b.1) := by
          unfold List.Nodup at hnodup
          rw [List.pairwise_map] at hnodup
          exact hnodup
        exact (hsorted.and hne).imp (fun {a b} h => by
          obtain ⟨h1, h2⟩ := h
          simp only [List.enumLE] at h1
          split_ifs at h1 with hab hba
          · right
            simp only [decide_eq_true_eq] at hab hba h1
            exact ⟨le_antisymm hba hab, lt_of_le_of_ne h1 h2⟩
          · left
            simp only [decide_eq_true_eq] at hab hba
            exact lt_of_not_le hba)
      · rw [List.map_take, List.mergeSort_enum]

/-! ### Claim C3: what the ranking operation does to storage. -/

theorem foldl_map_update (runId : ℕ) (l : List ScoreRec)
    (rows : List RunArticleRow) :
    l.foldl (fun rows sc => rows.map (updateRow runId sc)) rows
      = rows.map (fun row => l.foldl (fun r sc => updateRow runId sc r) row) := by
  induction l generalizing rows with
  | nil => simp
  | cons sc l ih =>
    simp only [List.foldl_cons]
    rw [ih, List.map_map]
    rfl

theorem rowFold_untouched (runId : ℕ) (l : List ScoreRec) (row : RunArticleRow)
    (h : ∀ sc ∈ l, ¬(row.runId = runId ∧ row.articleId = sc.articleId)) :
    l.foldl (fun r sc => updateRow runId sc r) row = row := by
  induction l with
  | nil => rfl
  | cons sc l ih =>
    simp only [List.foldl_cons]
    have hne := h sc (List.mem_cons_self sc l)
    have hrow : updateRow runId sc row = row := by
      unfold updateRow
      rw [if_neg]
      simp only [Bool.and_eq_true, beq_iff_eq]
      exact fun hh => hne ⟨hh.1, hh.2⟩
    rw [hrow]
    exact ih (fun x hx => h x (List.mem_cons_of_mem _ hx))

theorem rowFold_touched (runId : ℕ) (l : List ScoreRec) (row : RunArticleRow)
    (hrun : row.runId = runId)
    (hex : ∃ sc ∈ l, sc.articleId = row.articleId) :
    ∃ sc ∈ l, sc.articleId = row.articleId ∧
      l.foldl (fun r sc => updateRow runId sc r) row
        = ⟨row.runId, row.articleId, true, some (payloadOf sc)⟩ := by
  induction l generalizing row with
  | nil => obtain ⟨sc, hsc, _⟩ := hex; cases hsc
  | cons sc l ih =>
    by_cases hm : sc.articleId = row.articleId
    · have hstep : updateRow runId sc row
          = ⟨row.runId, row.articleId, true, some (payloadOf sc)⟩ := by
        unfold updateRow
        rw [if_pos (by simp [hrun, hm])]
      by_cases hex2 : ∃ sc2 ∈ l, sc2.articleId = row.articleId
      · obtain ⟨sc2, hsc2, hid2, hval⟩ :=
          ih (⟨row.runId, row.articleId, true, some (payloadOf sc)⟩ : RunArticleRow)
            hrun (by obtain ⟨x, hx, hxe⟩ := hex2; exact ⟨x, hx, hxe⟩)
        refine ⟨sc2, List.mem_cons_of_mem _ hsc2, hid2, ?_⟩
        simp only [List.foldl_cons, hstep]
        exact hval
      · push_neg at hex2
        refine ⟨sc, List.mem_cons_self sc l, hm, ?_⟩
        simp only [List.foldl_cons, hstep]
        exact rowFold_untouched runId l _ (fun x hx => by
          intro hh
          exact hex2 x hx hh.2.symm)
    · have hstep : updateRow runId sc row = row := by
        unfold updateRow
        rw [if_neg]
        simp only [Bool.and_eq_true, beq_iff_eq]
        exact fun hh => hm hh.2.symm
      have hex' : ∃ sc2 ∈ l, sc2.articleId = row.articleId := by
        obtain ⟨x, hx, hxe⟩ := hex
        rcases List.mem_cons.mp hx with h2 | h2
        · exact absurd (h2 ▸ hxe) hm
        · exact ⟨x, h2, hxe⟩
      obtain ⟨sc2, hsc2, hid2, hval⟩ := ih row hrun hex'
      refine ⟨sc2, List.mem_cons_of_mem _ hsc2, hid2, ?_⟩
      simp only [List.foldl_cons, hstep]
      exact hval

/-- Claim C3 (amended): `rank_articles` leaves the article and
recent-article tables untouched and preserves the set of `run_articles`
rows, but it does write to storage before returning: every row of another
run, or whose article was not selected, is unchanged, while each row of
this run whose article was selected has its selection flag set and the
selected score payload stored. -/
theorem rank_persists_selection (score : Article → ScoreRec) (db : RankDb)
    (runId maxStories : ℕ) (minScore : ℚ) :
    (rankArticles score db runId maxStories minScore).2.runArticleData
        = db.runArticleData ∧
    (rankArticles score db runId maxStories minScore).2.recentArticles
        = db.recentArticles ∧
    (rankArticles score db runId maxStories minScore).2.runArticleRows.length
        = db.runArticleRows.length ∧
    (∀ (i : ℕ) (row : RunArticleRow), db.runArticleRows[i]? = some row →
      (∀ sc ∈ (rankArticles score db runId maxStories minScore).1.rankedArticles,
        ¬(row.runId = runId ∧ row.articleId = sc.articleId)) →
      (rankArticles score db runId maxStories minScore).2.runArticleRows[i]?
        = some row) ∧
    (∀ (i : ℕ) (row : RunArticleRow), db.runArticleRows[i]? = some row →
      row.runId = runId →
      (∃ sc ∈ (rankArticles score db runId maxStories minScore).1.rankedArticles,
        sc.articleId = row.articleId) →
      ∃ sc ∈ (rankArticles score db runId maxStories minScore).1.rankedArticles,
        sc.articleId = row.articleId ∧
        (rankArticles score db runId maxStories minScore).2.runArticleRows[i]?
          = some ⟨row.runId, row.articleId, true, some (payloadOf sc)⟩) := by
  cases hemp : (getRunArticles db runId).isEmpty with
  | true =>
    have hdb : (rankArticles score db runId maxStories minScore).2 = db := by
      simp [rankArticles, hemp]
    have hsel : (rankArticles score db runId maxStories minScore).1.rankedArticles = [] := by
      simp [rankArticles, hemp]
    rw [hdb, hsel]
    refine ⟨rfl, rfl, rfl, ?_, ?_⟩
    · intro i row h _; exact h
    · intro i row _ _ hex
      obtain ⟨sc, hsc, _⟩ := hex
      cases hsc
  | false =>
    have hsel : (rankArticles score db runId maxStories minScore).1.rankedArticles
        = ((((getRunArticles db runId).map score).filter
            (fun sc => decide (minScore ≤ sc.total))).mergeSort
            (fun a b => decide (b.total ≤ a.total))).take maxStories := by
      simp [rankArticles, hemp]
    have hrows0 : (rankArticles score db runId maxStories minScore).2.runArticleRows
        = (((((getRunArticles db runId).map score).filter
            (fun sc => decide (minScore ≤ sc.total))).mergeSort
            (fun a b => decide (b.total ≤ a.total))).take maxStories).foldl
            (fun rows sc => rows.map (updateRow runId sc))
            db.runArticleRows := by
      simp [rankArticles, hemp]
    have hrows : (rankArticles score db runId maxStories minScore).2.runArticleRows
        = db.runArticleRows.map (fun row =>
            (((((getRunArticles db runId).map score).filter
              (fun sc => decide (minScore ≤ sc.total))).mergeSort
              (fun a b => decide (b.total ≤ a.total))).take maxStories).foldl
              (fun r sc => updateRow runId sc r) row) := by
      rw [hrows0]
      exact foldl_map_update runId _ _
    have hdata : (rankArticles score db runId maxStories minScore).2.runArticleData
        = db.runArticleData := by simp [rankArticles, hemp]
    have hrec : (rankArticles score db runId maxStories minScore).2.recentArticles
        = db.recentArticles := by simp [rankArticles, hemp]
    refine ⟨hdata, hrec, by rw [hrows, List.length_map], ?_, ?_⟩
    · intro i row hi hno
      rw [hrows, List.getElem?_map, hi, Option.map_some']
      rw [Option.some_inj]
      refine rowFold_untouched runId _ row ?_
      intro sc hsc
      exact hno sc (by rwa [hsel])
    · intro i row hi hrun hex
      rw [hsel] at hex
      obtain ⟨sc, hsc, hid, hval⟩ := rowFold_touched runId _ row hrun hex
      refine ⟨sc, by rwa [hsel], hid, ?_⟩
      rw [hrows, List.getElem?_map, hi, Option.map_some', Option.some_inj]
      exact hval

/-- Witness for the amended C3: in a one-row store whose article scores
0.7 (above the threshold 0), the frame theorem applies. -/
theorem rank_persists_selection_witness :
    (rankArticles scoreConst dbRank0 1 20 0).2.runArticleData
      = dbRank0.runArticleData :=
  (rank_persists_selection scoreConst dbRank0 1 20 0).1

/-- Counterexample for C3 as stated: ranking run 1 of a store holding one
unselected row flips that row's selection flag to true and returns a
changed store — `rank_articles` does persist the selection flag and score
payload itself. -/
theorem rank_writes_storage :
    (rankArticles scoreConst dbRank0 1 20 0).2.runArticleRows.map
        (fun r => r.includedInRank) = [true] ∧
    dbRank0.runArticleRows.map (fun r => r.includedInRank) = [false] ∧
    (rankArticles scoreConst dbRank0 1 20 0).2 ≠ dbRank0 := by
  have hA : (rankArticles scoreConst dbRank0 1 20 0).2.runArticleRows.map
      (fun r => r.includedInRank) = [true] := by
    norm_num [rankArticles, getRunArticles, dbRank0, articleStored, scoreConst,
      updateRow, payloadOf]
  refine ⟨hA, rfl, ?_⟩
  intro h
  have h2 := congrArg (fun d : RankDb =>
    d.runArticleRows.map (fun r => r.includedInRank)) h
  simp only at h2
  rw [hA] at h2
  cases h2

/-! ### Claim C4: score bounds. -/

theorem recencyScore_mem (H : ℝ) (age : Option ℝ) :
    0 ≤ recencyScore H age ∧ recencyScore H age ≤ 1 := by
  cases age with
  | none =>
    unfold recencyScore
    norm_num
  | some a =>
    unfold recencyScore
    exact ⟨clampR_nonneg _, clampR_le_one _⟩

theorem sourceScore_mem (w : Option ℚ) :
    0 ≤ sourceScore w ∧ sourceScore w ≤ 1 := by
  unfold sourceScore
  exact ⟨clampQ_nonneg _, clampQ_le_one _⟩

theorem topicScore_mem (bks sks : List String) (title content : String) :
    0 ≤ topicScore bks sks title content ∧ topicScore bks sks title content ≤ 1 := by
  rw [topicScore_eq]
  exact ⟨clampQ_nonneg _, clampQ_le_one _⟩

theorem noveltyTier_mem (d : ℤ) : 0 ≤ noveltyTier d ∧ noveltyTier d ≤ 1 := by
  unfold noveltyTier
  split_ifs <;> norm_num

theorem noveltyScore_mem (thr : ℚ) (a : Article) (ctx : Option (List Article)) :
    0 ≤ noveltyScore thr a ctx ∧ noveltyScore thr a ctx ≤ 1 := by
  cases ctx with
  | none => exact ⟨zero_le_one, le_refl 1⟩
  | some recents =>
    have hred : noveltyScore thr a (some recents)
        = (match recents.find? (noveltyPred thr a) with
           | none => 1
           | some r => noveltyTier (r.firstSeenDaysAgo.getD 0)) := rfl
    rw [hred]
    cases recents.find? (noveltyPred thr a) with
    | none => exact ⟨zero_le_one, le_refl 1⟩
    | some r => exact noveltyTier_mem _

theorem preferenceScore_mem (po pc : List String) (outlet category : String) :
    0 ≤ preferenceScore po pc outlet category ∧
      preferenceScore po pc outlet category ≤ 1 := by
  unfold preferenceScore
  exact ⟨clampQ_nonneg _, clampQ_le_one _⟩

/-- Claim C4 (amended): every one of the five component scores lies in
[0,1] for every article and context; and whenever the four configured
weights (each in [0,1]) sum to exactly 1.0, the weighted combined total
also lies in [0,1]. (Under the 1e-3 load tolerance alone the total can
leave [0,1]; see the counterexample.) -/
theorem component_and_total_bounds (cfg : RankingConfigW) (prefs : Prefs)
    (a : Article) (recents : List Article)
    (h1 : 0 ≤ cfg.recencyWeight) (h3 : 0 ≤ cfg.sourceWeight)
    (h5 : 0 ≤ cfg.topicWeight) (h7 : 0 ≤ cfg.noveltyWeight) :
    (0 ≤ recencyScore 48 a.ageHours ∧ recencyScore 48 a.ageHours ≤ 1) ∧
    (0 ≤ sourceScore a.sourceWeight ∧ sourceScore a.sourceWeight ≤ 1) ∧
    (0 ≤ topicScore prefs.boostKeywords prefs.suppressKeywords a.title
        (a.extractedContent.getD "") ∧
     topicScore prefs.boostKeywords prefs.suppressKeywords a.title
        (a.extractedContent.getD "") ≤ 1) ∧
    (0 ≤ noveltyScore (17/20) a (some recents) ∧
     noveltyScore (17/20) a (some recents) ≤ 1) ∧
    (0 ≤ preferenceScore prefs.preferredOutlets prefs.preferredCategories
        a.outlet a.category ∧
     preferenceScore prefs.preferredOutlets prefs.preferredCategories
        a.outlet a.category ≤ 1) ∧
    (cfg.recencyWeight + cfg.sourceWeight + cfg.topicWeight + cfg.noveltyWeight = 1 →
      0 ≤ scoreArticleTotal cfg prefs a recents ∧
      scoreArticleTotal cfg prefs a recents ≤ 1) := by
  obtain ⟨hr0, hr1⟩ := recencyScore_mem 48 a.ageHours
  obtain ⟨hs0, hs1⟩ := sourceScore_mem a.sourceWeight
  obtain ⟨ht0, ht1⟩ := topicScore_mem prefs.boostKeywords prefs.suppressKeywords
    a.title (a.extractedContent.getD "")
  obtain ⟨hn0, hn1⟩ := noveltyScore_mem (17/20) a (some recents)
  obtain ⟨hp0, hp1⟩ := preferenceScore_mem prefs.preferredOutlets
    prefs.preferredCategories a.outlet a.category
  refine ⟨⟨hr0, hr1⟩, ⟨hs0, hs1⟩, ⟨ht0, ht1⟩, ⟨hn0, hn1⟩, ⟨hp0, hp1⟩, ?_⟩
  intro hsum
  have hsum' : (cfg.recencyWeight : ℝ) + (cfg.sourceWeight : ℝ)
      + (cfg.topicWeight : ℝ) + (cfg.noveltyWeight : ℝ) = 1 := by
    exact_mod_cast hsum
  have hw : ((1 : ℝ) - cfg.recencyWeight - cfg.sourceWeight - cfg.topicWeight
      - cfg.noveltyWeight) = 0 := by linarith
  have hs0' : (0 : ℝ) ≤ (sourceScore a.sourceWeight : ℝ) := by exact_mod_cast hs0
  have hs1' : ((sourceScore a.sourceWeight : ℝ)) ≤ 1 := by exact_mod_cast hs1
  have ht0' : (0 : ℝ) ≤ (topicScore prefs.boostKeywords prefs.suppressKeywords
      a.title (a.extractedContent.getD "") : ℝ) := by exact_mod_cast ht0
  have ht1' : ((topicScore prefs.boostKeywords prefs.suppressKeywords
      a.title (a.extractedContent.getD "") : ℝ)) ≤ 1 := by exact_mod_cast ht1
  have hn0' : (0 : ℝ) ≤ (noveltyScore (17/20) a (some recents) : ℝ) := by
    exact_mod_cast hn0
  have hn1' : ((noveltyScore (17/20) a (some recents) : ℝ)) ≤ 1 := by
    exact_mod_cast hn1
  have hwr : (0 : ℝ) ≤ (cfg.recencyWeight : ℝ) := by exact_mod_cast h1
  have hws : (0 : ℝ) ≤ (cfg.sourceWeight : ℝ) := by exact_mod_cast h3
  have hwt : (0 : ℝ) ≤ (cfg.topicWeight : ℝ) := by exact_mod_cast h5
  have hwn : (0 : ℝ) ≤ (cfg.noveltyWeight : ℝ) := by exact_mod_cast h7
  unfold scoreArticleTotal
  rw [hw, mul_zero, add_zero]
  constructor
  · have t1 := mul_nonneg hr0 hwr
    have t2 := mul_nonneg hs0' hws
    have t3 := mul_nonneg ht0' hwt
    have t4 := mul_nonneg hn0' hwn
    linarith
  · have t1 := mul_le_of_le_one_left hwr hr1
    have t2 := mul_le_of_le_one_left hws hs1'
    have t3 := mul_le_of_le_one_left hwt ht1'
    have t4 := mul_le_of_le_one_left hwn hn1'
    linarith

/-- Witness for the amended C4 at the default weights (0.3/0.2/0.3/0.2,
which sum to exactly 1) and a bare article. -/
theorem component_and_total_bounds_witness :
    0 ≤ scoreArticleTotal ⟨3/10, 1/5, 3/10, 1/5⟩ prefsNone articleFresh [] ∧
    scoreArticleTotal ⟨3/10, 1/5, 3/10, 1/5⟩ prefsNone articleFresh [] ≤ 1 :=
  (component_and_total_bounds ⟨3/10, 1/5, 3/10, 1/5⟩ prefsNone articleFresh []
    (by norm_num) (by norm_num) (by norm_num) (by norm_num)).2.2.2.2.2
    (by norm_num)

/-- Counterexample for C4 as stated: the weight configuration
(1.0, 0.001, 0, 0) passes load validation (sum 1.001, inside the
tolerance), the derived preference weight is -0.001, and a fresh article
from a weight-1.0 source reaches a combined total of 1.0005 > 1. -/
theorem total_exceeds_one :
    rankingConfigAccepted (some 1) (some (1/1000)) (some 0) (some 0) = true ∧
    1 < scoreArticleTotal cfgEdge prefsNone articleFresh [] := by
  constructor
  · simp only [rankingConfigAccepted, fieldInRange, weightSumCheck,
      Option.getD_some, Bool.and_eq_true, decide_eq_true_eq]
    refine ⟨⟨⟨⟨⟨by norm_num, by norm_num⟩, by norm_num, by norm_num⟩,
      by norm_num, by norm_num⟩, by norm_num, by norm_num⟩, ?_⟩
    rw [abs_le]
    constructor <;> norm_num
  · have hr : recencyScore 48 articleFresh.ageHours = 1 := by
      have hred : recencyScore 48 articleFresh.ageHours
          = max 0 (min 1 (Real.exp (-(Real.log 2 / 48) * 0))) := rfl
      rw [hred, mul_zero, Real.exp_zero]
      norm_num
    have hs : sourceScore articleFresh.sourceWeight = 1 := by
      show max 0 (min 1 ((some (1 : ℚ)).getD 1)) = 1
      norm_num
    have ht : topicScore prefsNone.boostKeywords prefsNone.suppressKeywords
        articleFresh.title (articleFresh.extractedContent.getD "") = 1/2 :=
      topicScore_nil _ _
    have hn : noveltyScore (17/20) articleFresh (some []) = 1 := rfl
    have hp : preferenceScore prefsNone.preferredOutlets
        prefsNone.preferredCategories articleFresh.outlet articleFresh.category
        = 1/2 := by
      show preferenceScore [] [] "" "" = 1/2
      unfold preferenceScore
      norm_num [pyLower]
    unfold scoreArticleTotal
    rw [hr, hs, ht, hn, hp]
    show (1 : ℝ) < 1 * ((1 : ℚ) : ℝ) + ((1 : ℚ) : ℝ) * (((1 : ℚ)/1000 : ℚ) : ℝ)
      + (((1 : ℚ)/2 : ℚ) : ℝ) * (((0 : ℚ)) : ℝ) + ((1 : ℚ) : ℝ) * (((0 : ℚ)) : ℝ)
      + (((1 : ℚ)/2 : ℚ) : ℝ)
        * ((1 : ℝ) - ((1 : ℚ) : ℝ) - (((1 : ℚ)/1000 : ℚ) : ℝ) - (((0 : ℚ)) : ℝ)
            - (((0 : ℚ)) : ℝ))
    push_cast
    norm_num

/-- Witness for C2 at a one-article run with budget 20 and threshold 0. -/
theorem rank_selection_witness :
    (rankArticles scoreConst dbRank0 1 20 0).1.rankedArticles.length ≤ 20 :=
  (rank_selection scoreConst dbRank0 1 20 0).1
